import Mathlib

/-!
# Verification of the 2fa-now core

A shallow embedding, in Lean 4, of the core of the `2fa-now` repository:
the TOTP code generator and its per-window cache, the fixed-window rate
limiter (both variants present in the source), the client-IP extraction,
the at-rest encryption record format, the sync reconciliation endpoint and
the share-token lifecycle.  Machine integers are modelled as `Nat` with
explicit reduction modulo `2^32` where the source wraps; fallible
operations return `Option`.

External library primitives that the repository calls but does not define
(the `otpauth` TOTP implementation, Node's `crypto` AEAD cipher and hex
`Buffer` codec) are modelled from the specification's description of them;
each such definition is marked `Modelled from the spec:` in its doc
comment.  Everything else is translated directly from the TypeScript
source.
-/

namespace TwoFA

/-! ## Byte-level helpers -/

/-- Truncate to a 32-bit word. -/
def u32 (n : Nat) : Nat := n % 4294967296

/-- Left rotation of a 32-bit word (`x` assumed `< 2^32`). -/
def rotl (x k : Nat) : Nat := u32 ((x <<< k) ||| (x >>> (32 - k)))

/-- Big-endian 8-byte serialization of a counter (< 2^64), as in
`HMAC-SHA1(secret, big-endian 8-byte counter)`. -/
def be8 (n : Nat) : List Nat :=
  [(n >>> 56) &&& 255, (n >>> 48) &&& 255, (n >>> 40) &&& 255, (n >>> 32) &&& 255,
   (n >>> 24) &&& 255, (n >>> 16) &&& 255, (n >>> 8) &&& 255, n &&& 255]

/-- Big-endian 4-byte groups to 32-bit words. -/
def bytesToWords : List Nat → List Nat
  | b0 :: b1 :: b2 :: b3 :: t => (b0 * 16777216 + b1 * 65536 + b2 * 256 + b3) :: bytesToWords t
  | _ => []

/-- 32-bit words back to big-endian bytes. -/
def wordsToBytes : List Nat → List Nat
  | [] => []
  | w :: t => ((w >>> 24) &&& 255) :: ((w >>> 16) &&& 255) :: ((w >>> 8) &&& 255) :: (w &&& 255)
      :: wordsToBytes t

/-! ## SHA-1 and HMAC-SHA1

Modelled from the spec: the repository delegates code generation to the
`otpauth` library ("SHA1 HMAC, 6 digits, 30-second period — RFC 4226/6238
semantics"); the hash and MAC are therefore implemented here following the
spec's algorithm description (FIPS 180-1 SHA-1, RFC 2104 HMAC). -/

/-- Extend the 16 message-schedule words to 80 (FIPS 180-1 §6.1.2 b). -/
def sha1Extend : Nat → List Nat → List Nat
  | 0, acc => acc
  | fuel + 1, acc =>
    let n := acc.length
    let w := rotl (acc.getD (n - 3) 0 ^^^ acc.getD (n - 8) 0 ^^^
                   acc.getD (n - 14) 0 ^^^ acc.getD (n - 16) 0) 1
    sha1Extend fuel (acc ++ [w])

/-- The 80 SHA-1 rounds over one block's schedule. -/
def sha1Rounds : Nat → List Nat → Nat × Nat × Nat × Nat × Nat → Nat × Nat × Nat × Nat × Nat
  | _, [], s => s
  | i, w :: ws, (a, b, c, d, e) =>
    let fk :=
      if i < 20 then ((b &&& c) ||| ((b ^^^ 4294967295) &&& d), 1518500249)
      else if i < 40 then (b ^^^ c ^^^ d, 1859775393)
      else if i < 60 then ((b &&& c) ||| (b &&& d) ||| (c &&& d), 2400959708)
      else (b ^^^ c ^^^ d, 3395469782)
    let temp := u32 (rotl a 5 + fk.1 + e + fk.2 + w)
    sha1Rounds (i + 1) ws (temp, a, rotl b 30, c, d)

/-- One SHA-1 compression over a 64-byte block. -/
def sha1Compress (h : Nat × Nat × Nat × Nat × Nat) (block : List Nat) :
    Nat × Nat × Nat × Nat × Nat :=
  let ws := sha1Extend 64 (bytesToWords block)
  let (a, b, c, d, e) := sha1Rounds 0 ws h
  (u32 (h.1 + a), u32 (h.2.1 + b), u32 (h.2.2.1 + c), u32 (h.2.2.2.1 + d), u32 (h.2.2.2.2 + e))

/-- Process the padded message 64 bytes at a time (fuel = number of blocks). -/
def sha1Loop : Nat → Nat × Nat × Nat × Nat × Nat → List Nat → Nat × Nat × Nat × Nat × Nat
  | 0, h, _ => h
  | fuel + 1, h, bytes =>
    match bytes with
    | [] => h
    | _ :: _ => sha1Loop fuel (sha1Compress h (bytes.take 64)) (bytes.drop 64)

/-- SHA-1 padding: `0x80`, zeros to 56 mod 64, then the 64-bit bit length. -/
def sha1Pad (msg : List Nat) : List Nat :=
  msg ++ 128 :: List.replicate ((119 - msg.length % 64) % 64) 0 ++ be8 (msg.length * 8)

/-- SHA-1 of a byte list, as a 20-byte list. -/
def sha1 (msg : List Nat) : List Nat :=
  let padded := sha1Pad msg
  let h := sha1Loop (padded.length / 64 + 1)
      (1732584193, 4023233417, 2562383102, 271733878, 3285377520) padded
  wordsToBytes [h.1, h.2.1, h.2.2.1, h.2.2.2.1, h.2.2.2.2]

/-- HMAC-SHA1 (RFC 2104) with 64-byte block size. -/
def hmacSha1 (key msg : List Nat) : List Nat :=
  let k := if key.length > 64 then sha1 key else key
  let k0 := k ++ List.replicate (64 - k.length) 0
  sha1 ((k0.map (· ^^^ 92)) ++ sha1 ((k0.map (· ^^^ 54)) ++ msg))

/-! ## Base32 decoding

Modelled from the spec: `OTPAuth.Secret.fromBase32` is library code; the
spec fixes its contract ("the `secret` parameter (base32)", "Decoding
failure (invalid base32 alphabet, empty payload) fails with
`InvalidSecret`").  The RFC 4648 alphabet `A–Z2–7` is accepted; any other
character fails. -/

/-- Value of one base32 alphabet character. -/
def b32Val (c : Char) : Option Nat :=
  let n := c.toNat
  if 65 ≤ n ∧ n ≤ 90 then some (n - 65)
  else if 50 ≤ n ∧ n ≤ 55 then some (n - 24)
  else none

/-- Accumulate 5-bit groups into bytes; leftover bits (< 8) are dropped. -/
def b32Go : List Char → Nat → Nat → Option (List Nat)
  | [], _, _ => some []
  | c :: t, acc, nbits =>
    match b32Val c with
    | none => none
    | some v =>
      let acc' := acc * 32 + v
      if nbits + 5 ≥ 8 then
        (b32Go t (acc' % 2 ^ (nbits + 5 - 8)) (nbits + 5 - 8)).map
          ((acc' >>> (nbits + 5 - 8)) :: ·)
      else b32Go t acc' (nbits + 5)

/-- Base32-decode a string to key bytes. -/
def fromBase32 (s : String) : Option (List Nat) := b32Go s.data 0 0

/-! ## The TOTP generator (`generateTOTP` in `src/hooks/useTOTP.ts`,
`src/app/page.tsx` and `src/components/TOTPCard.tsx`) -/

/-- RFC 4226 dynamic truncation of a 20-byte digest, reduced mod `10^6`. -/
def dynamicTruncate (digest : List Nat) : Nat :=
  let o := digest.getD 19 0 &&& 15
  let v := digest.getD o 0 * 16777216 + digest.getD (o + 1) 0 * 65536 +
           digest.getD (o + 2) 0 * 256 + digest.getD (o + 3) 0
  (v &&& 2147483647) % 1000000

/-- A digit character. -/
def digitChar (d : Nat) : Char := Char.ofNat (48 + d)

/-- Left-pad to exactly 6 digits (the value is always `< 10^6`). -/
def pad6 (n : Nat) : String :=
  ⟨[digitChar (n / 100000 % 10), digitChar (n / 10000 % 10), digitChar (n / 1000 % 10),
    digitChar (n / 100 % 10), digitChar (n / 10 % 10), digitChar (n % 10)]⟩

/-- The 6-digit code for a key and counter window. -/
def totpCode (key : List Nat) (counter : Nat) : String :=
  pad6 (dynamicTruncate (hmacSha1 key (be8 counter)))

/-- `Math.ceil(totp.remaining() / 1000)` where `remaining = 30000 - now % 30000`. -/
def timeLeftOf (now : Nat) : Nat := (30000 - now % 30000 + 999) / 1000

/-- The source's `{ code, timeLeft } | { error }` union result. -/
inductive TOTPResult where
  | ok (code : String) (timeLeft : Nat)
  | error (msg : String)
deriving DecidableEq, Repr

/-- `!secret.trim()`: true when the string is empty or all whitespace. -/
def isBlank (s : String) : Bool :=
  s.data.all fun c => c = ' ' || c = '\t' || c = '\n' || c = '\r'

/-- `generateTOTP` from `src/hooks/useTOTP.ts` / `src/app/page.tsx`: blank
input short-circuits to `{ code: "", timeLeft: 30 }`; otherwise the secret
is base32-decoded (an undecodable or empty payload is the `InvalidSecret`
failure) and the SHA1/6-digit/30-second code is produced.  `now` is
`Date.now()` in milliseconds. -/
def generateTOTP (secret : String) (now : Nat) : TOTPResult :=
  if isBlank secret then .ok "" 30
  else
    match fromBase32 secret with
    | none => .error "Invalid secret"
    | some [] => .error "Invalid secret"
    | some key => .ok (totpCode key (now / 1000 / 30)) (timeLeftOf now)

/-! ## The per-window cache (`totpCache` / `generateTOTP` in
`src/components/TOTPCard.tsx`) -/

/-- One `totpCache` entry: `{ code, timeLeft, timestamp }`. -/
structure CacheEntry where
  code : String
  timeLeft : Nat
  timestamp : Nat
deriving DecidableEq, Repr

/-- The process-wide `Map`, as an insertion-ordered association list. -/
abbrev Cache := List (String × CacheEntry)

/-- `Map.get`. -/
def cacheLookup : Cache → String → Option CacheEntry
  | [], _ => none
  | p :: t, k => if p.1 = k then some p.2 else cacheLookup t k

/-- `Map.set`: replace in place if the key exists, else append. -/
def cacheSet : Cache → String → CacheEntry → Cache
  | [], k, v => [(k, v)]
  | p :: t, k, v => if p.1 = k then (k, v) :: t else p :: cacheSet t k v

/-- The `totpCache.size > 100` cleanup: drop entries older than one minute. -/
def cacheCleanup (m : Cache) (now : Nat) : Cache :=
  if m.length > 100 then m.filter fun p => !(p.2.timestamp < now - 60000) else m

/-- The compute-and-store path of the cached generator. -/
def computeAndCache (m : Cache) (secret ckey : String) (now : Nat) : TOTPResult × Cache :=
  match fromBase32 secret with
  | none => (.error "Invalid secret", m)
  | some [] => (.error "Invalid secret", m)
  | some key =>
    let code := totpCode key (now / 1000 / 30)
    let r : CacheEntry := ⟨code, timeLeftOf now, now⟩
    (.ok code r.timeLeft, cacheCleanup (cacheSet m ckey r) now)

/-- `generateTOTP` from `src/components/TOTPCard.tsx`: keyed by
`` `${secret}-${timeWindow}` ``, a stored entry is returned whenever it was
written less than 1000 ms ago. -/
def generateTOTPCached (m : Cache) (secret : String) (now : Nat) : TOTPResult × Cache :=
  if isBlank secret then (.ok "" 30, m)
  else
    let ckey := secret ++ "-" ++ toString (now / 30000)
    match cacheLookup m ckey with
    | some e => if now - e.timestamp < 1000 then (.ok e.code e.timeLeft, m)
                else computeAndCache m secret ckey now
    | none => computeAndCache m secret ckey now

/-! ## The rate limiters

Two variants exist in the source: `src/lib/rateLimit.ts` (no sweep) and the
`rateLimit` bundled in `src/app/page.tsx` (sweeps expired records on every
call).  Both share `WINDOW_MS = 15 * 60 * 1000` and `MAX_REQUESTS = 100`. -/

/-- A `requests` map record: `{ count, resetTime }`. -/
structure RLRecord where
  count : Nat
  resetTime : Nat
deriving DecidableEq, Repr

/-- The shared `requests` map. -/
abbrev RLState := List (String × RLRecord)

def WINDOW_MS : Nat := 900000

def MAX_REQUESTS : Nat := 100

/-- The `{ success, resetTime? }` result. -/
structure RLResult where
  success : Bool
  resetTime : Option Nat
deriving DecidableEq, Repr

/-- `requests.get(ip)`. -/
def rlLookup : RLState → String → Option RLRecord
  | [], _ => none
  | p :: t, ip => if p.1 = ip then some p.2 else rlLookup t ip

/-- `requests.set(ip, v)`. -/
def rlSet : RLState → String → RLRecord → RLState
  | [], ip, v => [(ip, v)]
  | p :: t, ip, v => if p.1 = ip then (ip, v) :: t else p :: rlSet t ip v

/-- `rateLimit` from `src/lib/rateLimit.ts`: fresh or expired identities
start a new window with count 1; in-window requests below the cap
increment; at the cap the call is denied with the stored reset time. -/
def rateLimit (m : RLState) (ip : String) (now : Nat) : RLResult × RLState :=
  match rlLookup m ip with
  | none => (⟨true, none⟩, rlSet m ip ⟨1, now + WINDOW_MS⟩)
  | some record =>
    if now > record.resetTime then (⟨true, none⟩, rlSet m ip ⟨1, now + WINDOW_MS⟩)
    else if record.count ≥ MAX_REQUESTS then (⟨false, some record.resetTime⟩, m)
    else (⟨true, none⟩, rlSet m ip ⟨record.count + 1, record.resetTime⟩)

/-- `rateLimit` from the copy bundled in `src/app/page.tsx`: every call
first deletes every record whose `resetTime` has passed, then proceeds as
above (the in-place expired-reset branch is unreachable after the sweep). -/
def rateLimitSweep (m : RLState) (ip : String) (now : Nat) : RLResult × RLState :=
  let m := m.filter fun p => !(p.2.resetTime < now)
  match rlLookup m ip with
  | none => (⟨true, none⟩, rlSet m ip ⟨1, now + WINDOW_MS⟩)
  | some existing =>
    if existing.resetTime < now then (⟨true, none⟩, rlSet m ip ⟨1, now + WINDOW_MS⟩)
    else if existing.count ≥ MAX_REQUESTS then (⟨false, some existing.resetTime⟩, m)
    else (⟨true, none⟩, rlSet m ip ⟨existing.count + 1, existing.resetTime⟩)

/-- Run `rateLimit` over a list of call times for one identity, collecting
the results. -/
def rateLimitRun (m : RLState) (ip : String) : List Nat → List RLResult × RLState
  | [] => ([], m)
  | t :: ts =>
    let (r, m') := rateLimit m ip t
    let (rs, m'') := rateLimitRun m' ip ts
    (r :: rs, m'')

/-! ## `getClientIP` (`src/lib/rateLimit.ts`) -/

/-- Split a character list at a separator character (JS `String.split` with
a one-character separator). -/
def splitCh (sep : Char) : List Char → List (List Char)
  | [] => [[]]
  | c :: rest =>
    let r := splitCh sep rest
    if c = sep then [] :: r else (c :: r.headD []) :: r.tail

/-- `getClientIP`: `forwarded?.split(",")[0] || realIP || "unknown"`, with
`none` for an absent header. -/
def getClientIP (forwarded realIP : Option String) : String :=
  let fallback := match realIP with
    | some r => if r ≠ "" then r else "unknown"
    | none => "unknown"
  match forwarded with
  | some f =>
    let first : List Char := (splitCh ',' f.data).headD []
    if first ≠ [] then ⟨first⟩ else fallback
  | none => fallback

/-! ## UTF-8 (the `"utf8"` codec used by `cipher.update`/`decipher.update`)

Modelled from the spec: the byte codec belongs to Node's runtime, not the
repository; it is the standard UTF-8 encoding, written with division and
remainder so the round-trip is provable. -/

/-- UTF-8 encode a character list to bytes. -/
def utf8Encode : List Char → List Nat
  | [] => []
  | c :: t =>
    (if c.toNat < 128 then [c.toNat]
     else if c.toNat < 2048 then [192 + c.toNat / 64, 128 + c.toNat % 64]
     else if c.toNat < 65536 then
       [224 + c.toNat / 4096, 128 + c.toNat / 64 % 64, 128 + c.toNat % 64]
     else
       [240 + c.toNat / 262144, 128 + c.toNat / 4096 % 64, 128 + c.toNat / 64 % 64,
        128 + c.toNat % 64])
    ++ utf8Encode t

/-- Fuelled UTF-8 decoder (fuel ≥ number of bytes suffices). -/
def utf8DecodeF : Nat → List Nat → Option (List Char)
  | 0, [] => some []
  | 0, _ :: _ => none
  | _ + 1, [] => some []
  | f + 1, b1 :: rest =>
    if b1 < 128 then (utf8DecodeF f rest).map (Char.ofNat b1 :: ·)
    else if b1 < 192 then none
    else if b1 < 224 then
      match rest with
      | b2 :: r2 =>
        if 128 ≤ b2 ∧ b2 < 192 then
          (utf8DecodeF f r2).map (Char.ofNat ((b1 - 192) * 64 + (b2 - 128)) :: ·)
        else none
      | [] => none
    else if b1 < 240 then
      match rest with
      | b2 :: b3 :: r3 =>
        if (128 ≤ b2 ∧ b2 < 192) ∧ (128 ≤ b3 ∧ b3 < 192) then
          (utf8DecodeF f r3).map
            (Char.ofNat ((b1 - 224) * 4096 + (b2 - 128) * 64 + (b3 - 128)) :: ·)
        else none
      | _ => none
    else if b1 < 248 then
      match rest with
      | b2 :: b3 :: b4 :: r4 =>
        if (128 ≤ b2 ∧ b2 < 192) ∧ (128 ≤ b3 ∧ b3 < 192) ∧ (128 ≤ b4 ∧ b4 < 192) then
          (utf8DecodeF f r4).map
            (Char.ofNat ((b1 - 240) * 262144 + (b2 - 128) * 4096 + (b3 - 128) * 64 + (b4 - 128)) :: ·)
        else none
      | _ => none
    else none

/-- UTF-8 decode a byte list. -/
def utf8Decode (l : List Nat) : Option (List Char) := utf8DecodeF l.length l

/-! ## Hex (`Buffer.toString("hex")` / `Buffer.from(_, "hex")`)

Modelled from the spec: the stored record is "the concatenation/encoding of
`nonce || authTag || ciphertext`"; the codec is the standard lowercase hex
encoding, with decoding failing on anything that is not canonical hex. -/

/-- The lowercase hex digit for `n < 16`. -/
def hexDigit (n : Nat) : Char := Char.ofNat (if n < 10 then 48 + n else 87 + n)

/-- Value of a lowercase hex digit character. -/
def hexVal (c : Char) : Option Nat :=
  if 48 ≤ c.toNat ∧ c.toNat ≤ 57 then some (c.toNat - 48)
  else if 97 ≤ c.toNat ∧ c.toNat ≤ 102 then some (c.toNat - 87)
  else none

/-- Bytes to lowercase hex characters. -/
def hexOfBytes : List Nat → List Char
  | [] => []
  | b :: t => hexDigit (b / 16) :: hexDigit (b % 16) :: hexOfBytes t

/-- Hex characters back to bytes (strict: canonical lowercase, even length). -/
def hexDecode : List Char → Option (List Nat)
  | [] => some []
  | [_] => none
  | c1 :: c2 :: t =>
    match hexVal c1, hexVal c2, hexDecode t with
    | some h, some l, some r => some ((16 * h + l) :: r)
    | _, _, _ => none

/-! ## Number/byte conversions for the AEAD model -/

/-- Little-endian base-256 digits of a natural number (`0 ↦ []`). -/
def natBytesF : Nat → Nat → List Nat
  | 0, _ => []
  | fuel + 1, n => if n = 0 then [] else n % 256 :: natBytesF fuel (n / 256)

/-- Little-endian byte representation of a natural number. -/
def natBytes (n : Nat) : List Nat := natBytesF n n

/-- Little-endian byte list back to a natural number. -/
def ofBytes : List Nat → Nat
  | [] => 0
  | b :: t => b + 256 * ofBytes t

/-- Injective encoding of a byte list as a natural number (base 257 with
digits shifted by one, so no trailing-zero ambiguity). -/
def encodeL : List Nat → Nat
  | [] => 0
  | b :: t => (b + 1) + 257 * encodeL t

/-! ## `encrypt` / `decrypt` (`src/app/page.tsx`, `aes-256-gcm`)

The record format (`iv.toString("hex") + ":" + authTag.toString("hex") +
":" + encrypted`), the three-part split and the tag comparison are the
repository's own code.  The cipher primitive itself is Node's
`aes-256-gcm`.  Modelled from the spec: "an authenticated symmetric cipher
(AEAD, 256-bit key) with a fresh random nonce per encryption […]
encryption that also detects tampering via an authentication tag" — the
keystream is an exact stream cipher (XOR), and the tag is an ideal MAC,
i.e. an injective function of `(key, nonce, ciphertext)`.  The nonce `iv`
(`randomBytes(16)` in the source) is an explicit argument, standing for
the randomness. -/

/-- One keystream byte of the modelled stream cipher. -/
def ksByte (key : List Nat) (iv i : Nat) : Nat := (ofBytes key + iv + i) % 256

/-- XOR a byte list against the keystream (its own inverse). -/
def ctr (key : List Nat) (iv : Nat) : Nat → List Nat → List Nat
  | _, [] => []
  | i, b :: t => (b ^^^ ksByte key iv i) :: ctr key iv (i + 1) t

/-- The ideal authentication tag over `(key, nonce, ciphertext)`. -/
def mac (key : List Nat) (iv : Nat) (ct : List Nat) : Nat :=
  Nat.pair (encodeL key) (Nat.pair iv (encodeL ct))

/-- `encrypt(text)`: fresh nonce `iv`, ciphertext, and the
`ivHex:tagHex:ctHex` record, as a character list. -/
def encrypt (key : List Nat) (iv : Nat) (text : String) : List Char :=
  let ct := ctr key iv 0 (utf8Encode text.data)
  hexOfBytes (natBytes iv) ++ ':' :: (hexOfBytes (natBytes (mac key iv ct))
    ++ ':' :: hexOfBytes ct)

/-- `decrypt(encryptedData)`: split on `":"`, require exactly three parts,
hex-decode them, check the authentication tag, and decode the plaintext.
Any failure (malformed structure, non-hex content, tag mismatch) is the
`DecryptionError` (`none`). -/
def decrypt (key : List Nat) (record : List Char) : Option String :=
  match splitCh ':' record with
  | [p0, p1, p2] =>
    match hexDecode p0, hexDecode p1, hexDecode p2 with
    | some ivb, some tagb, some ctb =>
      let iv := ofBytes ivb
      if tagb = natBytes (mac key iv ctb) then (utf8Decode (ctr key iv 0 ctb)).map String.mk
      else none
    | _, _, _ => none
  | _ => none

/-! ## The authoritative store and the sync POST handler
(`src/app/api/secrets/route.ts`)

The `Secret` table is unique on `(userId, secret)` where `secret` is the
*encrypted* value (`userId_secret` in the `upsert`); `SharedSecret` is
unique on `token` and on `secretId`, with `ON DELETE CASCADE` to `Secret`
(migration SQL in the repository). -/

/-- A `Secret` row (`secret` holds the encrypted record). -/
structure Row where
  id : Nat
  userId : String
  secret : List Char
  label : String
  createdAt : Nat
deriving DecidableEq, Repr

/-- A `SharedSecret` row. -/
structure ShareRow where
  token : Nat
  secretId : Nat
deriving DecidableEq, Repr

/-- One item of the client's sync batch: `{ secret, label, createdAt }`. -/
structure SyncItem where
  secret : String
  label : String
  createdAt : Nat
deriving DecidableEq, Repr

/-- `prisma.secret.upsert` on the `userId_secret` unique key: update only
the label when a row with that `(userId, encryptedSecret)` exists, else
create a row (with a fresh id). -/
def upsertRow (db : List Row) (nid : Nat) (u : String) (enc : List Char)
    (lbl : String) (cat : Nat) : List Row × Nat :=
  if db.any fun r => r.userId == u && r.secret == enc then
    (db.map fun r => if r.userId == u && r.secret == enc then { r with label := lbl } else r, nid)
  else (db ++ [⟨nid, u, enc, lbl, cat⟩], nid + 1)

/-- The sync POST handler's batch application: each item is encrypted with
a fresh nonce (the paired `Nat`) and upserted, in order, in one
transaction. -/
def reconcile (key : List Nat) (st : List Row × Nat) (u : String)
    (batch : List (SyncItem × Nat)) : List Row × Nat :=
  batch.foldl
    (fun st it => upsertRow st.1 st.2 u (encrypt key it.2 it.1.secret) it.1.label it.1.createdAt)
    st

/-- Insertion into a list sorted by `createdAt` descending. -/
def insertDesc (r : Row) : List Row → List Row
  | [] => [r]
  | x :: t => if r.createdAt > x.createdAt then r :: x :: t else x :: insertDesc r t

/-- `orderBy: { createdAt: "desc" }`. -/
def sortDesc : List Row → List Row
  | [] => []
  | x :: t => insertDesc x (sortDesc t)

/-- The canonical list the POST handler returns: the owner's rows, newest
first, with the stored secret decrypted. -/
def canonicalList (key : List Nat) (db : List Row) (u : String) :
    List (Option String × String × Nat) :=
  (sortDesc (db.filter (·.userId == u))).map fun r => (decrypt key r.secret, r.label, r.createdAt)

/-! ## The share endpoints (`src/app/api/secrets/route.ts` share POST /
DELETE, share GET resolve, and the cascade from the migration SQL) -/

/-- `findFirst` of the secret owned by the session user. -/
def findOwned (db : List Row) (u : String) (sid : Nat) : Option Row :=
  db.find? fun r => r.id == sid && r.userId == u

/-- The share POST handler (`issueOrGet`): 404 when the secret is not the
caller's; an existing share's token is returned unchanged; otherwise a
share with a fresh token is created. -/
def issueOrGet (db : List Row) (shares : List ShareRow) (newTok : Nat) (u : String)
    (sid : Nat) : Option Nat × List ShareRow :=
  match findOwned db u sid with
  | none => (none, shares)
  | some _ =>
    match shares.find? (·.secretId == sid) with
    | some sh => (some sh.token, shares)
    | none => (some newTok, shares ++ [⟨newTok, sid⟩])

/-- The share DELETE handler (`revoke`): `deleteMany` of the secret's
shares, after the ownership check. -/
def revoke (db : List Row) (shares : List ShareRow) (u : String) (sid : Nat) :
    Option Unit × List ShareRow :=
  match findOwned db u sid with
  | none => (none, shares)
  | some _ => (some (), shares.filter fun sh => !(sh.secretId == sid))

/-- The share GET resolver's outcome. -/
inductive ResolveResult where
  | notFound
  | invalidSecret
  | ok (label : String) (otp : String) (timeLeft : Nat)
deriving DecidableEq, Repr

/-- The public share GET handler (`resolve`): look the token up, follow the
foreign key to the owning secret, and generate a live code from the stored
secret value. -/
def resolveShare (db : List Row) (shares : List ShareRow) (token : Nat) (now : Nat) :
    ResolveResult :=
  match shares.find? (·.token == token) with
  | none => .notFound
  | some sh =>
    match db.find? (·.id == sh.secretId) with
    | none => .notFound
    | some row =>
      match generateTOTP (⟨row.secret⟩ : String) now with
      | .ok c tl => .ok row.label c tl
      | .error _ => .invalidSecret

/-- The secrets DELETE handler plus the `ON DELETE CASCADE` of
`SharedSecret.secretId`: the owned row is removed and every share pointing
at a removed row goes with it. -/
def deleteSecret (db : List Row) (shares : List ShareRow) (u : String) (sid : Nat) :
    List Row × List ShareRow :=
  (db.filter fun r => !(r.id == sid && r.userId == u),
   shares.filter fun sh => !(db.any fun r => (r.id == sid && r.userId == u) && sh.secretId == r.id))

/-- A concrete 32-byte key standing for `ENCRYPTION_KEY`. -/
def sampleKey : List Nat := List.replicate 32 7

/-! ## Claim C3 — the spec's golden vector -/

set_option maxRecDepth 100000

set_option maxHeartbeats 2000000

/-- C3, counterexample: for the secret `JBSWY3DPEHPK3PXP` at Unix time 59
(`nowMillis = 59000`), `generateTOTP` returns the code `996554` (with
1 second left in the window), not `287082` as the claim states.  (`287082`
is the RFC 6238 reference value for the RFC's 20-byte ASCII secret
`12345678901234567890`, a different key.) -/
theorem totp_vector_counterexample :
    generateTOTP "JBSWY3DPEHPK3PXP" 59000 = TOTPResult.ok "996554" 1 ∧
    "996554" ≠ "287082" := by
  constructor
  · decide
  · decide

/-- C3, amended: for the secret `JBSWY3DPEHPK3PXP` at Unix time 59
(`nowMillis = 59000`), the code generator (SHA1, 6 digits, 30-second
period) returns the code string `996554`. -/
theorem totp_vector_amended :
    generateTOTP "JBSWY3DPEHPK3PXP" 59000 = TOTPResult.ok "996554" 1 := by
  decide

/-! ## Claims C1 and C2 — reconciliation is *not* idempotent on the code

The sync POST handler upserts on the unique key `(userId, encryptedSecret)`
but `encrypt` draws a fresh random nonce on every call, so the encrypted
value of the same plaintext never matches the stored row: the second
submission of an identical batch inserts a duplicate row instead of
updating the existing one. -/

/-- C1: submitting the batch `[{secret := "B", label := "x", createdAt := 5}]`
twice for owner `u` (the second call drawing a different fresh nonce, `2`
instead of `1`) leaves two rows whose stored secrets both decrypt to `"B"`:
the canonical list after the second call has grown to two entries, so
reconciliation is not idempotent. -/
theorem reconcile_not_idempotent :
    (canonicalList sampleKey (reconcile sampleKey ([], 0) "u" [(⟨"B", "x", 5⟩, 1)]).1 "u").length = 1 ∧
    (canonicalList sampleKey
      (reconcile sampleKey (reconcile sampleKey ([], 0) "u" [(⟨"B", "x", 5⟩, 1)]) "u"
        [(⟨"B", "x", 5⟩, 2)]).1 "u") =
      [(some "B", "x", 5), (some "B", "x", 5)] := by
  constructor
  · decide
  · decide

/-- C2: two upserts for owner `u` with the same plaintext secret `"B"` and
labels `"a"` then `"b"` (fresh nonces `1` and `2`) leave **two** stored
rows for that owner, both decrypting to `"B"`, carrying the old and the
new label — the `(ownerId, secretMaterial)` pair is stored twice because
the uniqueness constraint ranges over the randomized ciphertext. -/
theorem duplicate_plaintext_stored :
    ((reconcile sampleKey (reconcile sampleKey ([], 0) "u" [(⟨"B", "a", 5⟩, 1)]) "u"
        [(⟨"B", "b", 6⟩, 2)]).1.filter (·.userId == "u")).map
      (fun r => (decrypt sampleKey r.secret, r.label)) =
    [(some "B", "a"), (some "B", "b")] := by
  decide

/-! ## Claim C10 — absent forwarding headers share the identity `"unknown"` -/

/-- C10: when `x-forwarded-for` is absent or its first comma-separated
entry is empty, and `x-real-ip` is absent, `getClientIP` returns the
constant `"unknown"` — all such clients are counted against one shared
rate-limit identity. -/
theorem getClientIP_unknown (fwd rip : Option String)
    (hf : fwd = none ∨ ∃ s, fwd = some s ∧ (splitCh ',' s.data).headD [] = [])
    (hr : rip = none) :
    getClientIP fwd rip = "unknown" := by
  subst hr
  rcases hf with h | ⟨s, rfl, hs⟩
  · subst h; rfl
  · simp only [getClientIP]
    rw [hs]
    simp

/-- C10's witness: a request whose `x-forwarded-for` starts with an empty
entry and has no `x-real-ip` is attributed to `"unknown"`. -/
theorem getClientIP_unknown_witness :
    ((some ",1.2.3.4" : Option String) = none ∨
      ∃ s, (some ",1.2.3.4" : Option String) = some s ∧ (splitCh ',' s.data).headD [] = []) ∧
    getClientIP (some ",1.2.3.4") none = "unknown" :=
  ⟨Or.inr ⟨",1.2.3.4", rfl, by decide⟩,
   getClientIP_unknown _ _ (Or.inr ⟨",1.2.3.4", rfl, by decide⟩) rfl⟩

/-! ## Claim C4 — when `generateTOTP` fails with `InvalidSecret` -/

/-- C4, counterexample: for the empty payload the claim demands the error
result, but `generateTOTP` short-circuits blank input to the sentinel
`{ code: "", timeLeft: 30 }`, a non-error value. -/
theorem generateTOTP_empty_not_error :
    generateTOTP "" 0 = TOTPResult.ok "" 30 ∧
    ∀ m, TOTPResult.ok "" 30 ≠ TOTPResult.error m := by
  exact ⟨rfl, fun m h => TOTPResult.noConfusion h⟩

/-- C4, amended: for blank input (empty or all-whitespace) `generateTOTP`
returns the sentinel `{ code: "", timeLeft: 30 }` without validating; for
every other input it returns the error result exactly when base32 decoding
fails (invalid alphabet) or the decoded payload is empty, and otherwise a
6-digit code. -/
theorem generateTOTP_error_iff (s : String) (now : Nat) (h : isBlank s = false) :
    ((∃ e, generateTOTP s now = TOTPResult.error e) ↔
      (fromBase32 s = none ∨ fromBase32 s = some [])) ∧
    (∀ c tl, generateTOTP s now = TOTPResult.ok c tl → c.length = 6) := by
  unfold generateTOTP
  rw [h]
  simp only [Bool.false_eq_true, if_false]
  cases hb : fromBase32 s with
  | none =>
    refine ⟨⟨fun _ => Or.inl rfl, fun _ => ⟨"Invalid secret", rfl⟩⟩, ?_⟩
    intro c tl hok
    exact TOTPResult.noConfusion hok
  | some l =>
    cases l with
    | nil =>
      refine ⟨⟨fun _ => Or.inr rfl, fun _ => ⟨"Invalid secret", rfl⟩⟩, ?_⟩
      intro c tl hok
      exact TOTPResult.noConfusion hok
    | cons b bs =>
      constructor
      · constructor
        · rintro ⟨e, he⟩
          exact TOTPResult.noConfusion he
        · rintro (hn | he)
          · exact absurd hn (by simp)
          · exact absurd he (by simp)
      · intro c tl hok
        cases hok
        rfl

/-- C4's witness: the non-blank secret `JBSWY3DPEHPK3PXP` decodes, so the
amended characterization instantiates there. -/
theorem generateTOTP_error_iff_witness :
    isBlank "JBSWY3DPEHPK3PXP" = false ∧
    (((∃ e, generateTOTP "JBSWY3DPEHPK3PXP" 59000 = TOTPResult.error e) ↔
        (fromBase32 "JBSWY3DPEHPK3PXP" = none ∨ fromBase32 "JBSWY3DPEHPK3PXP" = some [])) ∧
      (∀ c tl, generateTOTP "JBSWY3DPEHPK3PXP" 59000 = TOTPResult.ok c tl → c.length = 6)) :=
  ⟨by decide, generateTOTP_error_iff "JBSWY3DPEHPK3PXP" 59000 (by decide)⟩

/-! ## Claim C6 — rate-limit boundary behaviour -/

theorem rlLookup_set_self (m : RLState) (ip : String) (v : RLRecord) :
    rlLookup (rlSet m ip v) ip = some v := by
  induction m with
  | nil => simp [rlSet, rlLookup]
  | cons p t ih =>
    by_cases hp : p.1 = ip
    · simp [rlSet, hp, rlLookup]
    · simp [rlSet, hp, rlLookup, ih]

/-- Within a window, below the cap, every call increments the counter and
succeeds. -/
theorem rateLimitRun_inWindow (ip : String) :
    ∀ (ts : List Nat) (m : RLState) (k R : Nat),
      rlLookup m ip = some ⟨k, R⟩ → (∀ t ∈ ts, t ≤ R) → k + ts.length ≤ MAX_REQUESTS →
      (∀ r ∈ (rateLimitRun m ip ts).1, r = ⟨true, none⟩) ∧
      rlLookup (rateLimitRun m ip ts).2 ip = some ⟨k + ts.length, R⟩ := by
  intro ts
  induction ts with
  | nil =>
    intro m k R hl _ _
    exact ⟨by simp [rateLimitRun], by simpa [rateLimitRun] using hl⟩
  | cons t ts ih =>
    intro m k R hl hin hcap
    have ht : t ≤ R := hin t (by simp)
    have hkcap : ¬ k ≥ MAX_REQUESTS := by
      simp only [List.length_cons] at hcap
      omega
    have hstep : rateLimit m ip t = (⟨true, none⟩, rlSet m ip ⟨k + 1, R⟩) := by
      unfold rateLimit
      rw [hl]
      simp [Nat.not_lt.mpr ht, hkcap]
    have hl' : rlLookup (rlSet m ip ⟨k + 1, R⟩) ip = some ⟨k + 1, R⟩ := rlLookup_set_self ..
    have hin' : ∀ x ∈ ts, x ≤ R := fun x hx => hin x (by simp [hx])
    have hcap' : (k + 1) + ts.length ≤ MAX_REQUESTS := by
      simp only [List.length_cons] at hcap
      omega
    obtain ⟨hall, hfin⟩ := ih (rlSet m ip ⟨k + 1, R⟩) (k + 1) R hl' hin' hcap'
    constructor
    · intro r hr
      simp only [rateLimitRun, hstep] at hr
      rcases List.mem_cons.mp hr with h | h
      · exact h
      · exact hall r h
    · simp only [rateLimitRun, hstep]
      simpa [Nat.add_assoc, Nat.add_comm 1 ts.length] using hfin

/-- C6: from a fresh identity, the 1st call and the 99 further in-window
calls all succeed (100 successes); the 101st call inside the window fails
with the stored reset time `t1 + WINDOW_MS`, which lies strictly in the
future; and a call after that reset time has elapsed succeeds and resets
the stored counter to 1. -/
theorem rateLimit_boundary (m : RLState) (ip : String) (t1 : Nat) (ts : List Nat)
    (t101 t' : Nat)
    (hfresh : rlLookup m ip = none)
    (hlen : ts.length = 99)
    (hin : ∀ t ∈ ts, t ≤ t1 + WINDOW_MS)
    (h101 : t101 < t1 + WINDOW_MS)
    (hafter : t1 + WINDOW_MS < t') :
    (rateLimit m ip t1).1 = ⟨true, none⟩ ∧
    (∀ r ∈ (rateLimitRun (rateLimit m ip t1).2 ip ts).1, r = ⟨true, none⟩) ∧
    (rateLimit (rateLimitRun (rateLimit m ip t1).2 ip ts).2 ip t101).1 =
      ⟨false, some (t1 + WINDOW_MS)⟩ ∧
    t101 < t1 + WINDOW_MS ∧
    (rateLimit (rateLimit (rateLimitRun (rateLimit m ip t1).2 ip ts).2 ip t101).2 ip t').1 =
      ⟨true, none⟩ ∧
    rlLookup (rateLimit (rateLimit (rateLimitRun (rateLimit m ip t1).2 ip ts).2 ip t101).2 ip t').2
      ip = some ⟨1, t' + WINDOW_MS⟩ := by
  have hstep1 : rateLimit m ip t1 = (⟨true, none⟩, rlSet m ip ⟨1, t1 + WINDOW_MS⟩) := by
    unfold rateLimit
    rw [hfresh]
  set m1 := (rateLimit m ip t1).2 with hm1
  have hl1 : rlLookup m1 ip = some ⟨1, t1 + WINDOW_MS⟩ := by
    rw [hm1, hstep1]
    exact rlLookup_set_self ..
  obtain ⟨hall, hfin⟩ := rateLimitRun_inWindow ip ts m1 1 (t1 + WINDOW_MS)
    hl1 hin (by rw [hlen]; decide)
  set m2 := (rateLimitRun m1 ip ts).2 with hm2
  have hfin' : rlLookup m2 ip = some ⟨100, t1 + WINDOW_MS⟩ := by
    rw [hfin, hlen]
  have hstep101 : rateLimit m2 ip t101 = (⟨false, some (t1 + WINDOW_MS)⟩, m2) := by
    unfold rateLimit
    rw [hfin']
    simp [Nat.not_lt.mpr (Nat.le_of_lt h101), MAX_REQUESTS]
  have hstepLast : rateLimit m2 ip t' = (⟨true, none⟩, rlSet m2 ip ⟨1, t' + WINDOW_MS⟩) := by
    unfold rateLimit
    rw [hfin']
    simp [hafter]
  refine ⟨by rw [hstep1], hall, by rw [hstep101], h101, ?_, ?_⟩
  · rw [hstep101]
    simp only
    rw [hstepLast]
  · rw [hstep101]
    simp only
    rw [hstepLast]
    exact rlLookup_set_self ..

/-- C6's witness: the boundary behaviour at concrete times — 100 calls at
time 0, the 101st at time 5, and a final call at time `10^7 > 900000`. -/
theorem rateLimit_boundary_witness :
    rlLookup [] "a" = none ∧
    ((rateLimit [] "a" 0).1 = ⟨true, none⟩ ∧
     (∀ r ∈ (rateLimitRun (rateLimit [] "a" 0).2 "a" (List.replicate 99 0)).1, r = ⟨true, none⟩) ∧
     (rateLimit (rateLimitRun (rateLimit [] "a" 0).2 "a" (List.replicate 99 0)).2 "a" 5).1 =
       ⟨false, some (0 + WINDOW_MS)⟩ ∧
     5 < 0 + WINDOW_MS ∧
     (rateLimit (rateLimit (rateLimitRun (rateLimit [] "a" 0).2 "a"
         (List.replicate 99 0)).2 "a" 5).2 "a" 10000000).1 = ⟨true, none⟩ ∧
     rlLookup (rateLimit (rateLimit (rateLimitRun (rateLimit [] "a" 0).2 "a"
         (List.replicate 99 0)).2 "a" 5).2 "a" 10000000).2 "a" =
       some ⟨1, 10000000 + WINDOW_MS⟩) :=
  ⟨rfl, rateLimit_boundary [] "a" 0 (List.replicate 99 0) 5 10000000 rfl (by decide)
    (by decide) (by decide) (by decide)⟩

/-! ## Claim C7 — reclamation of expired rate-limiter records -/

/-- C7, counterexample: in `src/lib/rateLimit.ts` no sweep exists.  With
identity `"a"` holding an expired record (reset time 5), a later call by a
*different* identity at time `10^6` — a subsequent access, i.e. a cleanup
opportunity — leaves `"a"`'s record in the shared map unchanged, far past
its window's expiry. -/
theorem rateLimit_no_reclaim_counterexample :
    rlLookup (rateLimit [("a", ⟨1, 5⟩)] "b" 1000000).2 "a" = some ⟨1, 5⟩ ∧
    (5 : Nat) < 1000000 := by
  constructor
  · rfl
  · decide

theorem mem_rlSet (m : RLState) (ip : String) (v : RLRecord) (e : String × RLRecord)
    (he : e ∈ rlSet m ip v) : e ∈ m ∨ e = (ip, v) := by
  induction m with
  | nil => simpa [rlSet] using he
  | cons p t ih =>
    by_cases hp : p.1 = ip
    · simp only [rlSet, if_pos hp] at he
      rcases List.mem_cons.mp he with h | h
      · exact Or.inr h
      · exact Or.inl (List.mem_cons_of_mem _ h)
    · simp only [rlSet, if_neg hp] at he
      rcases List.mem_cons.mp he with h | h
      · exact Or.inl (h ▸ List.mem_cons_self _ _)
      · rcases ih h with h' | h'
        · exact Or.inl (List.mem_cons_of_mem _ h')
        · exact Or.inr h'

theorem rlLookup_mem (m : RLState) (ip : String) (r : RLRecord)
    (h : rlLookup m ip = some r) : (ip, r) ∈ m := by
  induction m with
  | nil => simp [rlLookup] at h
  | cons p t ih =>
    rw [rlLookup] at h
    by_cases hp : p.1 = ip
    · rw [if_pos hp] at h
      have h2 : p.2 = r := Option.some.inj h
      have : (ip, r) = p := by rw [← hp, ← h2]
      rw [this]
      exact List.mem_cons_self _ _
    · rw [if_neg hp] at h
      exact List.mem_cons_of_mem _ (ih h)

/-- C7, amended behaviour of the `src/app/page.tsx` rate limiter: every
call first sweeps the whole map, so after any access every record left in
the shared `requests` map has a reset time that has not yet passed —
expired records never survive a cleanup cycle. -/
theorem rateLimitSweep_reclaims (m : RLState) (ip : String) (now : Nat)
    (e : String × RLRecord) (he : e ∈ (rateLimitSweep m ip now).2) :
    now ≤ e.2.resetTime := by
  have hmem : ∀ x : String × RLRecord, x ∈ m.filter (fun p => !(p.2.resetTime < now)) →
      now ≤ x.2.resetTime := by
    intro x hx
    have hx2 := (List.mem_filter.mp hx).2
    simp only [Bool.not_eq_true', decide_eq_false_iff_not, Nat.not_lt] at hx2
    exact hx2
  simp only [rateLimitSweep] at he
  split at he
  · rcases mem_rlSet _ _ _ _ he with h | h
    · exact hmem _ h
    · rw [h]; simp
  · rename_i record heq
    have hrec : now ≤ record.resetTime := hmem _ (rlLookup_mem _ _ _ heq)
    split at he
    · rcases mem_rlSet _ _ _ _ he with h | h
      · exact hmem _ h
      · rw [h]; simp
    · split at he
      · exact hmem _ he
      · rcases mem_rlSet _ _ _ _ he with h | h
        · exact hmem _ h
        · rw [h]
          simpa using hrec

/-- C7's witness: a concrete sweep — identity `"a"` expired at 3, a call by
`"c"` at time 500 keeps only unexpired records, and the surviving record
`("b", ⟨2, 1000⟩)` indeed has `500 ≤ 1000`. -/
theorem rateLimitSweep_reclaims_witness :
    (("b", (⟨2, 1000⟩ : RLRecord)) ∈
      (rateLimitSweep [("a", ⟨1, 3⟩), ("b", ⟨2, 1000⟩)] "c" 500).2) ∧
    500 ≤ (("b", (⟨2, 1000⟩ : RLRecord))).2.resetTime :=
  ⟨by decide, rateLimitSweep_reclaims [("a", ⟨1, 3⟩), ("b", ⟨2, 1000⟩)] "c" 500 _ (by decide)⟩

/-! ## Claim C5 — transparency of the per-window cache -/

/-- C5, counterexample: the cache is *not* transparent for `timeLeft`.  A
first call at `t = 58500` stores `{ code := "996554", timeLeft := 2 }`;
a second call at `t = 59400` (same 30-second window, 900 ms later) returns
the stored entry with `timeLeft = 2`, while an uncached recomputation at
`59400` yields `timeLeft = 1`. -/
theorem cached_totp_not_transparent :
    (generateTOTPCached (generateTOTPCached [] "JBSWY3DPEHPK3PXP" 58500).2
        "JBSWY3DPEHPK3PXP" 59400).1 = TOTPResult.ok "996554" 2 ∧
    generateTOTP "JBSWY3DPEHPK3PXP" 59400 = TOTPResult.ok "996554" 1 ∧
    TOTPResult.ok "996554" 2 ≠ TOTPResult.ok "996554" 1 := by
  refine ⟨by decide, by decide, by decide⟩

/-- C5, amended: a cache hit returns exactly the code an uncached
recomputation at the same `nowMillis` would return (the window is the
same, so the codes agree), and a `timeLeft` computed at the cache entry's
own timestamp — stale by at most one second (it equals the fresh value or
exceeds it by exactly 1). -/
theorem cached_totp_code_transparent (m : Cache) (s : String) (key : List Nat) (t0 now : Nat)
    (hb : isBlank s = false)
    (hl : cacheLookup m (s ++ "-" ++ toString (now / 30000)) =
      some ⟨totpCode key (t0 / 1000 / 30), timeLeftOf t0, t0⟩)
    (hwin : t0 / 30000 = now / 30000)
    (ht0 : t0 ≤ now)
    (hlt : now - t0 < 1000) :
    (generateTOTPCached m s now).1 = TOTPResult.ok (totpCode key (now / 1000 / 30)) (timeLeftOf t0)
    ∧ timeLeftOf now ≤ timeLeftOf t0 ∧ timeLeftOf t0 ≤ timeLeftOf now + 1 := by
  have hcounter : t0 / 1000 / 30 = now / 1000 / 30 := by
    rw [Nat.div_div_eq_div_mul, Nat.div_div_eq_div_mul]
    exact hwin
  refine ⟨?_, ?_, ?_⟩
  · simp only [generateTOTPCached, hb, Bool.false_eq_true, if_false, hl]
    rw [if_pos hlt, hcounter]
  · unfold timeLeftOf
    omega
  · unfold timeLeftOf
    omega

/-- C5's witness: the amended transparency at the concrete hit of the
counterexample's shape — entry cached at 58500, queried at 59400. -/
theorem cached_totp_code_transparent_witness :
    (isBlank "JBSWY3DPEHPK3PXP" = false ∧
     cacheLookup [("JBSWY3DPEHPK3PXP-1", ⟨"996554", 2, 58500⟩)]
        ("JBSWY3DPEHPK3PXP" ++ "-" ++ toString (59400 / 30000)) =
       some ⟨totpCode [72, 101, 108, 108, 111, 33, 222, 173, 190, 239] (58500 / 1000 / 30),
         timeLeftOf 58500, 58500⟩) ∧
    ((generateTOTPCached [("JBSWY3DPEHPK3PXP-1", ⟨"996554", 2, 58500⟩)] "JBSWY3DPEHPK3PXP"
        59400).1 =
      TOTPResult.ok (totpCode [72, 101, 108, 108, 111, 33, 222, 173, 190, 239] (59400 / 1000 / 30))
        (timeLeftOf 58500) ∧
     timeLeftOf 59400 ≤ timeLeftOf 58500 ∧ timeLeftOf 58500 ≤ timeLeftOf 59400 + 1) :=
  ⟨⟨by decide, by decide⟩,
   cached_totp_code_transparent _ _ _ 58500 59400 (by decide) (by decide) (by decide)
     (by decide) (by decide)⟩

/-! ## Claim C8 — the share-token lifecycle -/

/-- C8: for a stored secret owned by `u` (and share tokens unique, as the
`SharedSecret_token_key` unique index guarantees): (1) calling the share
POST handler twice returns the same token, with no rotation; (2) after the
share DELETE handler, resolving any token that pointed at that secret
fails with NotFound; (3) deleting the owning secret cascades, so resolving
such a token also fails with NotFound. -/
theorem share_token_lifecycle (db : List Row) (shares : List ShareRow) (u : String)
    (sid : Nat) (t1 t2 : Nat) (now : Nat)
    (hrow : (findOwned db u sid).isSome)
    (huniq : shares.Pairwise (fun a b => a.token ≠ b.token)) :
    ((issueOrGet db shares t1 u sid).1 =
        (issueOrGet db (issueOrGet db shares t1 u sid).2 t2 u sid).1 ∧
      (issueOrGet db shares t1 u sid).1.isSome) ∧
    (∀ tok sh, shares.find? (·.token == tok) = some sh → sh.secretId = sid →
      resolveShare db (revoke db shares u sid).2 tok now = ResolveResult.notFound) ∧
    (∀ tok sh, shares.find? (·.token == tok) = some sh → sh.secretId = sid →
      resolveShare (deleteSecret db shares u sid).1 (deleteSecret db shares u sid).2 tok now =
        ResolveResult.notFound) := by
  obtain ⟨row, hfind⟩ := Option.isSome_iff_exists.mp hrow
  refine ⟨?_, ?_, ?_⟩
  · unfold issueOrGet
    rw [hfind]
    cases hsh : shares.find? (·.secretId == sid) with
    | some sh => simp [hsh]
    | none => simp [List.find?_append, hsh]
  · intro tok sh hsh hsid
    have hmem : sh ∈ shares := List.mem_of_find?_eq_some hsh
    have htok : sh.token = tok := by simpa using List.find?_some hsh
    unfold revoke
    rw [hfind]
    simp only
    unfold resolveShare
    have : ((shares.filter fun x => !(x.secretId == sid)).find? (·.token == tok)) = none := by
      rw [List.find?_eq_none]
      intro x hx
      obtain ⟨hxm, hxs⟩ := List.mem_filter.mp hx
      simp only [Bool.not_eq_true', beq_eq_false_iff_ne, ne_eq] at hxs
      intro hxtok
      have hxtok' : x.token = tok := by simpa using hxtok
      rcases eq_or_ne x sh with rfl | hne
      · exact hxs hsid
      · have hts : x.token = sh.token := by rw [hxtok', htok]
        exact absurd hts (huniq.forall (fun a b h => Ne.symm h) hxm hmem hne)
    rw [this]
  · intro tok sh hsh hsid
    have hmem : sh ∈ shares := List.mem_of_find?_eq_some hsh
    have htok : sh.token = tok := by simpa using List.find?_some hsh
    unfold resolveShare deleteSecret
    have hfind' : db.find? (fun r => r.id == sid && r.userId == u) = some row := hfind
    have hany : db.any (fun r => (r.id == sid && r.userId == u) && sh.secretId == r.id) = true := by
      rw [List.any_eq_true]
      refine ⟨row, List.mem_of_find?_eq_some hfind', ?_⟩
      have hp := List.find?_some hfind'
      simp only [Bool.and_eq_true, beq_iff_eq] at hp ⊢
      exact ⟨hp, by rw [hsid, hp.1]⟩
    have : ((shares.filter fun x =>
        !(db.any fun r => (r.id == sid && r.userId == u) && x.secretId == r.id)).find?
          (·.token == tok)) = none := by
      rw [List.find?_eq_none]
      intro x hx
      obtain ⟨hxm, hxs⟩ := List.mem_filter.mp hx
      intro hxtok
      have hxtok' : x.token = tok := by simpa using hxtok
      rcases eq_or_ne x sh with rfl | hne
      · rw [hany] at hxs
        simp at hxs
      · have hts : x.token = sh.token := by rw [hxtok', htok]
        exact absurd hts (huniq.forall (fun a b h => Ne.symm h) hxm hmem hne)
    rw [this]

/-- C8's witness: the lifecycle at a one-row store with an existing share
(token 5): two issuances both return token 5; after revoke, and after
deleting the secret, resolving token 5 is NotFound. -/
theorem share_token_lifecycle_witness :
    ((findOwned [⟨1, "u", ['x'], "lbl", 0⟩] "u" 1).isSome ∧
     ([(⟨5, 1⟩ : ShareRow)].Pairwise fun a b => a.token ≠ b.token)) ∧
    (((issueOrGet [⟨1, "u", ['x'], "lbl", 0⟩] [⟨5, 1⟩] 10 "u" 1).1 =
        (issueOrGet [⟨1, "u", ['x'], "lbl", 0⟩]
          (issueOrGet [⟨1, "u", ['x'], "lbl", 0⟩] [⟨5, 1⟩] 10 "u" 1).2 20 "u" 1).1 ∧
      (issueOrGet [⟨1, "u", ['x'], "lbl", 0⟩] [⟨5, 1⟩] 10 "u" 1).1.isSome) ∧
     resolveShare [⟨1, "u", ['x'], "lbl", 0⟩]
        (revoke [⟨1, "u", ['x'], "lbl", 0⟩] [⟨5, 1⟩] "u" 1).2 5 0 = ResolveResult.notFound ∧
     resolveShare (deleteSecret [⟨1, "u", ['x'], "lbl", 0⟩] [⟨5, 1⟩] "u" 1).1
        (deleteSecret [⟨1, "u", ['x'], "lbl", 0⟩] [⟨5, 1⟩] "u" 1).2 5 0 =
       ResolveResult.notFound) :=
  ⟨⟨by decide, by decide⟩,
   (share_token_lifecycle [⟨1, "u", ['x'], "lbl", 0⟩] [⟨5, 1⟩] "u" 1 10 20 0
      (by decide) (by decide)).1,
   (share_token_lifecycle [⟨1, "u", ['x'], "lbl", 0⟩] [⟨5, 1⟩] "u" 1 10 20 0
      (by decide) (by decide)).2.1 5 ⟨5, 1⟩ (by decide) (by decide),
   (share_token_lifecycle [⟨1, "u", ['x'], "lbl", 0⟩] [⟨5, 1⟩] "u" 1 10 20 0
      (by decide) (by decide)).2.2 5 ⟨5, 1⟩ (by decide) (by decide)⟩

/-! ## Claim C9 — infrastructure: UTF-8 round trip -/

theorem utf8Encode_pos (c : Char) (t : List Char) : 0 < (utf8Encode (c :: t)).length := by
  unfold utf8Encode
  split
  · simp
  · split
    · simp
    · split
      · simp
      · simp

theorem char_toNat_lt (c : Char) : c.toNat < 1114112 := by
  have h : c.val.toNat < 55296 ∨ (57343 < c.val.toNat ∧ c.val.toNat < 1114112) := c.valid
  have heq : c.toNat = c.val.toNat := rfl
  omega

theorem utf8DecodeF_encode (cs : List Char) :
    ∀ f, (utf8Encode cs).length ≤ f → utf8DecodeF f (utf8Encode cs) = some cs := by
  induction cs with
  | nil =>
    intro f _
    cases f with
    | zero => rfl
    | succ f => rfl
  | cons c t ih =>
    intro f hf
    have hpos := utf8Encode_pos c t
    cases f with
    | zero => omega
    | succ f =>
      have hc := char_toNat_lt c
      simp only [utf8Encode] at hf ⊢
      by_cases h1 : c.toNat < 128
      · rw [if_pos h1] at hf ⊢
        simp only [List.cons_append, List.nil_append] at hf ⊢
        simp only [List.length_cons] at hf
        simp only [utf8DecodeF]
        rw [if_pos h1, ih f (by omega)]
        simp [Char.ofNat_toNat]
      · by_cases h2 : c.toNat < 2048
        · rw [if_neg h1, if_pos h2] at hf ⊢
          simp only [List.cons_append, List.nil_append] at hf ⊢
          simp only [List.length_cons] at hf
          simp only [utf8DecodeF]
          have hb1a : ¬ (192 + c.toNat / 64 < 128) := by omega
          have hb1b : ¬ (192 + c.toNat / 64 < 192) := by omega
          have hb1c : 192 + c.toNat / 64 < 224 := by omega
          rw [if_neg hb1a, if_neg hb1b, if_pos hb1c]
          have hb2 : 128 ≤ 128 + c.toNat % 64 ∧ 128 + c.toNat % 64 < 192 := by omega
          rw [if_pos hb2, ih f (by omega)]
          have hval : (192 + c.toNat / 64 - 192) * 64 + (128 + c.toNat % 64 - 128) = c.toNat := by
            omega
          rw [hval]
          simp [Char.ofNat_toNat]
        · by_cases h3 : c.toNat < 65536
          · rw [if_neg h1, if_neg h2, if_pos h3] at hf ⊢
            simp only [List.cons_append, List.nil_append] at hf ⊢
            simp only [List.length_cons] at hf
            simp only [utf8DecodeF]
            have hb1a : ¬ (224 + c.toNat / 4096 < 128) := by omega
            have hb1b : ¬ (224 + c.toNat / 4096 < 192) := by omega
            have hb1c : ¬ (224 + c.toNat / 4096 < 224) := by omega
            have hb1d : 224 + c.toNat / 4096 < 240 := by omega
            rw [if_neg hb1a, if_neg hb1b, if_neg hb1c, if_pos hb1d]
            have hb2 : (128 ≤ 128 + c.toNat / 64 % 64 ∧ 128 + c.toNat / 64 % 64 < 192) ∧
                (128 ≤ 128 + c.toNat % 64 ∧ 128 + c.toNat % 64 < 192) := by omega
            rw [if_pos hb2, ih f (by omega)]
            have hval : (224 + c.toNat / 4096 - 224) * 4096 +
                (128 + c.toNat / 64 % 64 - 128) * 64 + (128 + c.toNat % 64 - 128) = c.toNat := by
              omega
            rw [hval]
            simp [Char.ofNat_toNat]
          · rw [if_neg h1, if_neg h2, if_neg h3] at hf ⊢
            simp only [List.cons_append, List.nil_append] at hf ⊢
            simp only [List.length_cons] at hf
            simp only [utf8DecodeF]
            have hb1a : ¬ (240 + c.toNat / 262144 < 128) := by omega
            have hb1b : ¬ (240 + c.toNat / 262144 < 192) := by omega
            have hb1c : ¬ (240 + c.toNat / 262144 < 224) := by omega
            have hb1d : ¬ (240 + c.toNat / 262144 < 240) := by omega
            have hb1e : 240 + c.toNat / 262144 < 248 := by omega
            rw [if_neg hb1a, if_neg hb1b, if_neg hb1c, if_neg hb1d, if_pos hb1e]
            have hb2 : (128 ≤ 128 + c.toNat / 4096 % 64 ∧ 128 + c.toNat / 4096 % 64 < 192) ∧
                (128 ≤ 128 + c.toNat / 64 % 64 ∧ 128 + c.toNat / 64 % 64 < 192) ∧
                (128 ≤ 128 + c.toNat % 64 ∧ 128 + c.toNat % 64 < 192) := by omega
            rw [if_pos hb2, ih f (by omega)]
            have hval : (240 + c.toNat / 262144 - 240) * 262144 +
                (128 + c.toNat / 4096 % 64 - 128) * 4096 +
                (128 + c.toNat / 64 % 64 - 128) * 64 + (128 + c.toNat % 64 - 128) = c.toNat := by
              omega
            rw [hval]
            simp [Char.ofNat_toNat]

theorem utf8Decode_encode (cs : List Char) : utf8Decode (utf8Encode cs) = some cs :=
  utf8DecodeF_encode cs _ (Nat.le_refl _)

theorem utf8Encode_lt (cs : List Char) : ∀ b ∈ utf8Encode cs, b < 256 := by
  induction cs with
  | nil => intro b hb; simp [utf8Encode] at hb
  | cons c t ih =>
    intro b hb
    have hc := char_toNat_lt c
    unfold utf8Encode at hb
    rcases List.mem_append.mp hb with h | h
    · split at h
      · simp at h
        omega
      · split at h
        · simp at h
          rcases h with h | h <;> omega
        · split at h
          · simp at h
            rcases h with h | h | h <;> omega
          · simp at h
            rcases h with h | h | h | h <;> omega
    · exact ih b h

/-! ## Claim C9 — infrastructure: hex codec -/

theorem char_toNat_ofNat (n : Nat) (h : n < 55296) : (Char.ofNat n).toNat = n := by
  have hv : n.isValidChar := Or.inl h
  unfold Char.ofNat
  rw [dif_pos hv]
  rfl

theorem hexVal_lt (c : Char) (v : Nat) (h : hexVal c = some v) : v < 16 := by
  unfold hexVal at h
  split at h
  · cases h; omega
  · split at h
    · cases h; omega
    · cases h

theorem hexVal_hexDigit (n : Nat) (h : n < 16) : hexVal (hexDigit n) = some n := by
  unfold hexVal hexDigit
  by_cases h10 : n < 10
  · rw [if_pos h10]
    have ht : (Char.ofNat (48 + n)).toNat = 48 + n := char_toNat_ofNat _ (by omega)
    rw [ht, if_pos (by omega)]
    congr 1
    omega
  · rw [if_neg h10]
    have ht : (Char.ofNat (87 + n)).toNat = 87 + n := char_toNat_ofNat _ (by omega)
    rw [ht, if_neg (by omega), if_pos (by omega)]
    congr 1
    omega

theorem hexDigit_hexVal (c : Char) (v : Nat) (h : hexVal c = some v) : hexDigit v = c := by
  unfold hexVal at h
  split at h
  · rename_i hr
    cases h
    unfold hexDigit
    rw [if_pos (by omega)]
    have : 48 + (c.toNat - 48) = c.toNat := by omega
    rw [this]
    exact Char.ofNat_toNat c
  · split at h
    · rename_i hr
      cases h
      unfold hexDigit
      rw [if_neg (by omega)]
      have : 87 + (c.toNat - 87) = c.toNat := by omega
      rw [this]
      exact Char.ofNat_toNat c
    · cases h

theorem hexDigit_ne_colon (n : Nat) (h : n < 16) : hexDigit n ≠ ':' := by
  intro hcontra
  have heq : (hexDigit n).toNat = 58 := by rw [hcontra]; rfl
  unfold hexDigit at heq
  by_cases h10 : n < 10
  · rw [if_pos h10, char_toNat_ofNat _ (by omega)] at heq
    omega
  · rw [if_neg h10, char_toNat_ofNat _ (by omega)] at heq
    omega

theorem hexOfBytes_not_colon : ∀ (l : List Nat), (∀ b ∈ l, b < 256) → ':' ∉ hexOfBytes l := by
  intro l
  induction l with
  | nil => intro _ h; simp [hexOfBytes] at h
  | cons b t ih =>
    intro hb h
    have hb256 : b < 256 := hb b (by simp)
    simp only [hexOfBytes, List.mem_cons] at h
    rcases h with h | h | h
    · exact hexDigit_ne_colon (b / 16) (by omega) h.symm
    · exact hexDigit_ne_colon (b % 16) (by omega) h.symm
    · exact ih (fun x hx => hb x (by simp [hx])) h

theorem hexOfBytes_length : ∀ l : List Nat, (hexOfBytes l).length = 2 * l.length := by
  intro l
  induction l with
  | nil => rfl
  | cons b t ih => simp [hexOfBytes, ih]; omega

theorem hexDecode_hexOfBytes : ∀ (l : List Nat), (∀ b ∈ l, b < 256) →
    hexDecode (hexOfBytes l) = some l := by
  intro l
  induction l with
  | nil => intro _; rfl
  | cons b t ih =>
    intro hb
    have hb256 : b < 256 := hb b (by simp)
    simp only [hexOfBytes, hexDecode]
    rw [hexVal_hexDigit (b / 16) (by omega), hexVal_hexDigit (b % 16) (by omega),
      ih (fun x hx => hb x (by simp [hx]))]
    show some ((16 * (b / 16) + b % 16) :: t) = some (b :: t)
    have : 16 * (b / 16) + b % 16 = b := by omega
    rw [this]

theorem hexDecode_inv : ∀ (s : List Char) (b : List Nat),
    hexDecode s = some b → hexOfBytes b = s
  | [], b, h => by
    simp only [hexDecode] at h
    cases h
    rfl
  | [c], b, h => by simp [hexDecode] at h
  | c1 :: c2 :: t, b, h => by
    simp only [hexDecode] at h
    cases hv1 : hexVal c1 with
    | none => rw [hv1] at h; exact Option.noConfusion h
    | some v1 =>
      cases hv2 : hexVal c2 with
      | none => rw [hv1, hv2] at h; exact Option.noConfusion h
      | some v2 =>
        cases hr : hexDecode t with
        | none => rw [hv1, hv2, hr] at h; exact Option.noConfusion h
        | some r =>
          rw [hv1, hv2, hr] at h
          cases h
          have hrec := hexDecode_inv t r hr
          have h1 := hexDigit_hexVal c1 v1 hv1
          have h2 := hexDigit_hexVal c2 v2 hv2
          have hv1lt := hexVal_lt c1 v1 hv1
          have hv2lt := hexVal_lt c2 v2 hv2
          simp only [hexOfBytes, hrec]
          have e1 : (16 * v1 + v2) / 16 = v1 := by omega
          have e2 : (16 * v1 + v2) % 16 = v2 := by omega
          rw [e1, e2, h1, h2]

theorem hexDecode_lt : ∀ (s : List Char) (b : List Nat),
    hexDecode s = some b → ∀ x ∈ b, x < 256
  | [], b, h => by
    simp only [hexDecode] at h
    cases h
    intro x hx
    simp at hx
  | [c], b, h => by simp [hexDecode] at h
  | c1 :: c2 :: t, b, h => by
    simp only [hexDecode] at h
    cases hv1 : hexVal c1 with
    | none => rw [hv1] at h; exact Option.noConfusion h
    | some v1 =>
      cases hv2 : hexVal c2 with
      | none => rw [hv1, hv2] at h; exact Option.noConfusion h
      | some v2 =>
        cases hr : hexDecode t with
        | none => rw [hv1, hv2, hr] at h; exact Option.noConfusion h
        | some r =>
          rw [hv1, hv2, hr] at h
          cases h
          intro x hx
          have hv1lt := hexVal_lt c1 v1 hv1
          have hv2lt := hexVal_lt c2 v2 hv2
          rcases List.mem_cons.mp hx with hx | hx
          · omega
          · exact hexDecode_lt t r hr x hx

/-! ## Claim C9 — infrastructure: byte/number conversions -/

theorem ofBytes_natBytesF : ∀ (fuel n : Nat), n ≤ fuel → ofBytes (natBytesF fuel n) = n := by
  intro fuel
  induction fuel with
  | zero =>
    intro n h
    have : n = 0 := by omega
    simp [this, natBytesF, ofBytes]
  | succ fuel ih =>
    intro n h
    by_cases hn : n = 0
    · simp [natBytesF, hn, ofBytes]
    · have hdiv : n / 256 ≤ fuel := by
        have := Nat.div_lt_self (Nat.pos_of_ne_zero hn) (by omega : 1 < 256)
        omega
      simp only [natBytesF, if_neg hn, ofBytes]
      rw [ih (n / 256) hdiv]
      omega

theorem ofBytes_natBytes (n : Nat) : ofBytes (natBytes n) = n :=
  ofBytes_natBytesF n n (Nat.le_refl n)

theorem natBytes_inj (a b : Nat) (h : natBytes a = natBytes b) : a = b := by
  rw [← ofBytes_natBytes a, ← ofBytes_natBytes b, h]

theorem natBytesF_lt : ∀ (fuel n : Nat), ∀ b ∈ natBytesF fuel n, b < 256 := by
  intro fuel
  induction fuel with
  | zero => intro n b hb; simp [natBytesF] at hb
  | succ fuel ih =>
    intro n b hb
    by_cases hn : n = 0
    · simp [natBytesF, hn] at hb
    · simp only [natBytesF, if_neg hn, List.mem_cons] at hb
      rcases hb with hb | hb
      · omega
      · exact ih (n / 256) b hb

theorem natBytes_lt (n : Nat) : ∀ b ∈ natBytes n, b < 256 := natBytesF_lt n n

theorem ofBytes_inj_sameLength : ∀ (l1 l2 : List Nat), l1.length = l2.length →
    (∀ b ∈ l1, b < 256) → (∀ b ∈ l2, b < 256) → ofBytes l1 = ofBytes l2 → l1 = l2 := by
  intro l1
  induction l1 with
  | nil =>
    intro l2 hlen _ _ _
    cases l2 with
    | nil => rfl
    | cons b t => simp at hlen
  | cons b1 t1 ih =>
    intro l2 hlen hb1 hb2 heq
    cases l2 with
    | nil => simp at hlen
    | cons b2 t2 =>
      simp only [ofBytes] at heq
      have h1 : b1 < 256 := hb1 b1 (by simp)
      have h2 : b2 < 256 := hb2 b2 (by simp)
      have hb : b1 = b2 := by omega
      have ht : ofBytes t1 = ofBytes t2 := by omega
      have := ih t2 (by simpa using hlen) (fun x hx => hb1 x (by simp [hx]))
        (fun x hx => hb2 x (by simp [hx])) ht
      rw [hb, this]

theorem encodeL_inj : ∀ (l1 l2 : List Nat), (∀ b ∈ l1, b < 256) → (∀ b ∈ l2, b < 256) →
    encodeL l1 = encodeL l2 → l1 = l2 := by
  intro l1
  induction l1 with
  | nil =>
    intro l2 _ hb2 heq
    cases l2 with
    | nil => rfl
    | cons b t =>
      simp only [encodeL] at heq
      have : b < 256 := hb2 b (by simp)
      omega
  | cons b1 t1 ih =>
    intro l2 hb1 hb2 heq
    cases l2 with
    | nil =>
      simp only [encodeL] at heq
      have : b1 < 256 := hb1 b1 (by simp)
      omega
    | cons b2 t2 =>
      simp only [encodeL] at heq
      have h1 : b1 < 256 := hb1 b1 (by simp)
      have h2 : b2 < 256 := hb2 b2 (by simp)
      have hb : b1 = b2 := by omega
      have ht : encodeL t1 = encodeL t2 := by omega
      have := ih t2 (fun x hx => hb1 x (by simp [hx])) (fun x hx => hb2 x (by simp [hx])) ht
      rw [hb, this]

/-! ## Claim C9 — infrastructure: keystream and split -/

theorem ctr_ctr (key : List Nat) (iv : Nat) : ∀ (i : Nat) (l : List Nat),
    ctr key iv i (ctr key iv i l) = l := by
  intro i l
  induction l generalizing i with
  | nil => rfl
  | cons b t ih =>
    simp only [ctr]
    rw [Nat.xor_cancel_right, ih]

theorem ctr_lt (key : List Nat) (iv : Nat) : ∀ (i : Nat) (l : List Nat),
    (∀ b ∈ l, b < 256) → ∀ b ∈ ctr key iv i l, b < 256 := by
  intro i l
  induction l generalizing i with
  | nil => intro _ b hb; simp [ctr] at hb
  | cons x t ih =>
    intro hl b hb
    simp only [ctr, List.mem_cons] at hb
    rcases hb with hb | hb
    · subst hb
      have hx : x < 2 ^ 8 := hl x (by simp)
      have hks : ksByte key iv i < 2 ^ 8 := Nat.mod_lt _ (by omega)
      exact Nat.xor_lt_two_pow hx hks
    · exact ih (i + 1) (fun y hy => hl y (by simp [hy])) b hb

theorem splitCh_ne_nil (sep : Char) : ∀ l, splitCh sep l ≠ [] := by
  intro l
  cases l with
  | nil => simp [splitCh]
  | cons c t =>
    simp only [splitCh]
    split
    · simp
    · simp

theorem splitCh_no_sep (sep : Char) : ∀ (a : List Char), sep ∉ a → splitCh sep a = [a] := by
  intro a
  induction a with
  | nil => intro _; rfl
  | cons c t ih =>
    intro h
    have hc : ¬ (c = sep) := fun hc => h (by simp [hc])
    have ht : sep ∉ t := fun ht => h (by simp [ht])
    simp only [splitCh, if_neg hc, ih ht]
    rfl

theorem splitCh_append (sep : Char) : ∀ (a t : List Char), sep ∉ a →
    splitCh sep (a ++ sep :: t) = a :: splitCh sep t := by
  intro a
  induction a with
  | nil =>
    intro t _
    simp [splitCh]
  | cons c a' ih =>
    intro t h
    have hc : ¬ (c = sep) := fun hc => h (by simp [hc])
    have ha : sep ∉ a' := fun ha => h (by simp [ha])
    simp only [List.cons_append, splitCh, if_neg hc]
    rw [show (a'.append (sep :: t)) = a' ++ sep :: t from rfl, ih t ha]
    rfl

theorem splitCh_length_count (sep : Char) : ∀ (l : List Char),
    (splitCh sep l).length = l.count sep + 1 := by
  intro l
  induction l with
  | nil => rfl
  | cons c t ih =>
    by_cases hc : c = sep
    · subst hc
      have hstep : splitCh c (c :: t) = [] :: splitCh c t := by simp [splitCh]
      rw [hstep, List.length_cons, ih, List.count_cons]
      simp
    · have hne := splitCh_ne_nil sep t
      have hbeq : (c == sep) = false := by simp [hc]
      simp only [splitCh, if_neg hc, List.length_cons, List.count_cons, hbeq,
        List.length_tail]
      rw [ih]
      have hpos : 1 ≤ List.count sep t + 1 := by omega
      simp only [Bool.false_eq_true, if_false]
      omega

theorem decrypt_parts_ne_three (key : List Nat) (r : List Char)
    (h : (splitCh ':' r).length ≠ 3) : decrypt key r = none := by
  unfold decrypt
  split
  · rename_i p0 p1 p2 heq
    rw [heq] at h
    simp at h
  · rfl

theorem splitCh_three (A B C : List Char) (hA : ':' ∉ A) (hB : ':' ∉ B) (hC : ':' ∉ C) :
    splitCh ':' (A ++ ':' :: (B ++ ':' :: C)) = [A, B, C] := by
  rw [splitCh_append ':' A _ hA, splitCh_append ':' B _ hB, splitCh_no_sep ':' C hC]

/-- Evaluation of `decrypt` on a well-shaped three-part record. -/
theorem decrypt_parts (key : List Nat) (ivb tagb ctb : List Nat)
    (hiv : ∀ b ∈ ivb, b < 256) (htag : ∀ b ∈ tagb, b < 256) (hct : ∀ b ∈ ctb, b < 256) :
    decrypt key (hexOfBytes ivb ++ ':' :: (hexOfBytes tagb ++ ':' :: hexOfBytes ctb)) =
      if tagb = natBytes (mac key (ofBytes ivb) ctb) then
        (utf8Decode (ctr key (ofBytes ivb) 0 ctb)).map String.mk
      else none := by
  unfold decrypt
  rw [splitCh_three _ _ _ (hexOfBytes_not_colon _ hiv) (hexOfBytes_not_colon _ htag)
    (hexOfBytes_not_colon _ hct)]
  simp only [hexDecode_hexOfBytes _ hiv, hexDecode_hexOfBytes _ htag, hexDecode_hexOfBytes _ hct]

/-- The encryption round trip. -/
theorem decrypt_encrypt (key : List Nat) (iv : Nat) (p : String) :
    decrypt key (encrypt key iv p) = some p := by
  have hub := utf8Encode_lt p.data
  have hct := ctr_lt key iv 0 (utf8Encode p.data) hub
  show decrypt key (hexOfBytes (natBytes iv) ++ ':'
      :: (hexOfBytes (natBytes (mac key iv (ctr key iv 0 (utf8Encode p.data)))) ++ ':'
      :: hexOfBytes (ctr key iv 0 (utf8Encode p.data)))) = some p
  rw [decrypt_parts key _ _ _ (natBytes_lt iv) (natBytes_lt _) hct, ofBytes_natBytes,
    if_pos rfl, ctr_ctr, utf8Decode_encode]
  show some (⟨p.data⟩ : String) = some p
  obtain ⟨pd⟩ := p
  rfl

/-! ## Claim C9 — infrastructure: failure of `decrypt` on altered parts -/

theorem mem_set_or {α : Type} : ∀ (l : List α) (i : Nat) (c x : α),
    x ∈ l.set i c → x ∈ l ∨ x = c := by
  intro l
  induction l with
  | nil => intro i c x hx; simp at hx
  | cons b t ih =>
    intro i c x hx
    cases i with
    | zero =>
      rw [List.set_cons_zero] at hx
      rcases List.mem_cons.mp hx with h | h
      · exact Or.inr h
      · exact Or.inl (List.mem_cons_of_mem _ h)
    | succ i =>
      rw [List.set_cons_succ] at hx
      rcases List.mem_cons.mp hx with h | h
      · exact Or.inl (h ▸ List.mem_cons_self _ _)
      · rcases ih i c x h with h' | h'
        · exact Or.inl (List.mem_cons_of_mem _ h')
        · exact Or.inr h'

theorem set_ne_self {α : Type} (l : List α) (i : Nat) (c : α) (hi : i < l.length)
    (hc : l.get ⟨i, hi⟩ ≠ c) : l.set i c ≠ l := by
  intro hcontra
  have h1 : (l.set i c)[i]? = some c := List.getElem?_set_self hi
  rw [hcontra, List.getElem?_eq_getElem hi] at h1
  exact hc (Option.some.inj h1)

/-- Altered nonce part: the tag check fails (or the hex is invalid). -/
theorem decrypt_tampered_iv (key : List Nat) (iv : Nat) (ct : List Nat) (A' : List Char)
    (hct : ∀ b ∈ ct, b < 256)
    (hA : A' ≠ hexOfBytes (natBytes iv))
    (hlen : A'.length = (hexOfBytes (natBytes iv)).length)
    (hAc : ':' ∉ A') :
    decrypt key (A' ++ ':' :: (hexOfBytes (natBytes (mac key iv ct)) ++ ':'
      :: hexOfBytes ct)) = none := by
  unfold decrypt
  rw [splitCh_three _ _ _ hAc (hexOfBytes_not_colon _ (natBytes_lt _))
    (hexOfBytes_not_colon _ hct)]
  cases hdec : hexDecode A' with
  | none => simp [hdec, hexDecode_hexOfBytes _ (natBytes_lt _), hexDecode_hexOfBytes _ hct]
  | some ivb' =>
    have hA'eq : hexOfBytes ivb' = A' := hexDecode_inv A' ivb' hdec
    have hivb' : ∀ b ∈ ivb', b < 256 := hexDecode_lt A' ivb' hdec
    have hivne : ofBytes ivb' ≠ iv := by
      intro hcontra
      apply hA
      rw [← hA'eq]
      congr 1
      apply ofBytes_inj_sameLength ivb' (natBytes iv) ?_ hivb' (natBytes_lt iv)
        (by rw [hcontra, ofBytes_natBytes])
      have l1 : A'.length = 2 * ivb'.length := by rw [← hA'eq, hexOfBytes_length]
      have l2 : (hexOfBytes (natBytes iv)).length = 2 * (natBytes iv).length :=
        hexOfBytes_length _
      omega
    have hcond : natBytes (mac key iv ct) ≠ natBytes (mac key (ofBytes ivb') ct) := by
      intro hcontra
      have hm := natBytes_inj _ _ hcontra
      unfold mac at hm
      exact hivne ((Nat.pair_eq_pair.mp (Nat.pair_eq_pair.mp hm).2).1).symm
    simp only [hdec, hexDecode_hexOfBytes _ (natBytes_lt _), hexDecode_hexOfBytes _ hct]
    rw [if_neg hcond]

/-- Altered tag part: the tag no longer matches (or the hex is invalid). -/
theorem decrypt_tampered_tag (key : List Nat) (iv : Nat) (ct : List Nat) (B' : List Char)
    (hct : ∀ b ∈ ct, b < 256)
    (hB : B' ≠ hexOfBytes (natBytes (mac key iv ct)))
    (hBc : ':' ∉ B') :
    decrypt key (hexOfBytes (natBytes iv) ++ ':' :: (B' ++ ':' :: hexOfBytes ct)) = none := by
  unfold decrypt
  rw [splitCh_three _ _ _ (hexOfBytes_not_colon _ (natBytes_lt _)) hBc
    (hexOfBytes_not_colon _ hct)]
  cases hdec : hexDecode B' with
  | none => simp [hdec, hexDecode_hexOfBytes _ (natBytes_lt _), hexDecode_hexOfBytes _ hct]
  | some tagb' =>
    have hB'eq : hexOfBytes tagb' = B' := hexDecode_inv B' tagb' hdec
    have hcond : tagb' ≠ natBytes (mac key (ofBytes (natBytes iv)) ct) := by
      intro hcontra
      apply hB
      rw [← hB'eq, hcontra, ofBytes_natBytes]
    simp only [hdec, hexDecode_hexOfBytes _ (natBytes_lt _), hexDecode_hexOfBytes _ hct]
    rw [if_neg hcond]

/-- Altered ciphertext part: the tag check fails (or the hex is invalid). -/
theorem decrypt_tampered_ct (key : List Nat) (iv : Nat) (ct : List Nat) (C' : List Char)
    (hct : ∀ b ∈ ct, b < 256)
    (hC : C' ≠ hexOfBytes ct)
    (hCc : ':' ∉ C') :
    decrypt key (hexOfBytes (natBytes iv) ++ ':'
      :: (hexOfBytes (natBytes (mac key iv ct)) ++ ':' :: C')) = none := by
  unfold decrypt
  rw [splitCh_three _ _ _ (hexOfBytes_not_colon _ (natBytes_lt _))
    (hexOfBytes_not_colon _ (natBytes_lt _)) hCc]
  cases hdec : hexDecode C' with
  | none => simp [hdec, hexDecode_hexOfBytes _ (natBytes_lt _)]
  | some ctb' =>
    have hC'eq : hexOfBytes ctb' = C' := hexDecode_inv C' ctb' hdec
    have hctb' : ∀ b ∈ ctb', b < 256 := hexDecode_lt C' ctb' hdec
    have hcond : natBytes (mac key iv ct) ≠
        natBytes (mac key (ofBytes (natBytes iv)) ctb') := by
      rw [ofBytes_natBytes]
      intro hcontra
      have hm := natBytes_inj _ _ hcontra
      unfold mac at hm
      have hencl := (Nat.pair_eq_pair.mp (Nat.pair_eq_pair.mp hm).2).2
      have : ct = ctb' := encodeL_inj ct ctb' hct hctb' hencl
      exact hC (by rw [← hC'eq, this])
    simp only [hdec, hexDecode_hexOfBytes _ (natBytes_lt _)]
    rw [if_neg hcond]

theorem count_record (X Y Z : List Char) :
    (X ++ ':' :: (Y ++ ':' :: Z)).count ':' =
      X.count ':' + Y.count ':' + Z.count ':' + 2 := by
  simp only [List.count_append, List.count_cons_self]
  omega

theorem count_record_mid (X Y Z : List Char) (c : Char) (hc : c ≠ ':') :
    (X ++ c :: (Y ++ ':' :: Z)).count ':' =
      X.count ':' + Y.count ':' + Z.count ':' + 1 := by
  have hb : (c == ':') = false := by simpa using hc
  simp only [List.count_append, List.count_cons, List.count_cons_self, hb]
  simp
  omega

theorem count_record_mid2 (X Y Z : List Char) (c : Char) (hc : c ≠ ':') :
    (X ++ ':' :: (Y ++ c :: Z)).count ':' =
      X.count ':' + Y.count ':' + Z.count ':' + 1 := by
  have hb : (c == ':') = false := by simpa using hc
  simp only [List.count_append, List.count_cons, List.count_cons_self, hb]
  simp
  omega

/-- Altering any single character of an encryption record makes `decrypt`
fail. -/
theorem decrypt_set_ne (key : List Nat) (iv : Nat) (p : String) (i : Nat) (c' : Char)
    (hi : i < (encrypt key iv p).length)
    (hc : (encrypt key iv p).get ⟨i, hi⟩ ≠ c') :
    decrypt key ((encrypt key iv p).set i c') = none := by
  have hctb : ∀ b ∈ ctr key iv 0 (utf8Encode p.data), b < 256 :=
    ctr_lt key iv 0 _ (utf8Encode_lt p.data)
  set A := hexOfBytes (natBytes iv) with hAdef
  set B := hexOfBytes (natBytes (mac key iv (ctr key iv 0 (utf8Encode p.data)))) with hBdef
  set C := hexOfBytes (ctr key iv 0 (utf8Encode p.data)) with hCdef
  have hAnc : ':' ∉ A := hexOfBytes_not_colon _ (natBytes_lt _)
  have hBnc : ':' ∉ B := hexOfBytes_not_colon _ (natBytes_lt _)
  have hCnc : ':' ∉ C := hexOfBytes_not_colon _ hctb
  have henc : encrypt key iv p = A ++ ':' :: (B ++ ':' :: C) := rfl
  have hi' : i < (A ++ ':' :: (B ++ ':' :: C)).length := henc ▸ hi
  have hlen : (A ++ ':' :: (B ++ ':' :: C)).length =
      A.length + (1 + (B.length + (1 + C.length))) := by
    simp
    omega
  have hc' : (A ++ ':' :: (B ++ ':' :: C))[i]? ≠ some c' := by
    rw [← henc, List.getElem?_eq_getElem hi]
    intro h
    exact hc (by simpa using Option.some.inj h)
  rw [henc]
  rcases Nat.lt_or_ge i A.length with h1 | h1
  · -- inside the nonce hex
    have hcA : A.get ⟨i, h1⟩ ≠ c' := by
      intro h
      apply hc'
      rw [List.getElem?_append_left h1, List.getElem?_eq_getElem h1, ← h]
      rfl
    rw [List.set_append_left _ _ h1]
    by_cases hcolon : c' = ':'
    · subst hcolon
      apply decrypt_parts_ne_three
      rw [splitCh_length_count, count_record]
      have hmem : ':' ∈ A.set i ':' :=
        List.getElem?_mem (List.getElem?_set_self h1)
      have h1A : 0 < (A.set i ':').count ':' := List.count_pos_iff.mpr hmem
      omega
    · have hsetnc : ':' ∉ A.set i c' := by
        intro hmem
        rcases mem_set_or _ _ _ _ hmem with h | h
        · exact hAnc h
        · exact hcolon h.symm
      exact decrypt_tampered_iv key iv _ _ hctb
        (set_ne_self A i c' h1 hcA) (by simp) hsetnc
  · rcases Nat.lt_or_ge i (A.length + 1) with h2 | h2
    · -- the first colon
      have hieq : i = A.length := by omega
      subst hieq
      have hco : c' ≠ ':' := by
        intro h
        subst h
        apply hc'
        rw [List.getElem?_append_right h1]
        simp
      rw [List.set_append_right _ _ h1, Nat.sub_self, List.set_cons_zero]
      apply decrypt_parts_ne_three
      rw [splitCh_length_count, count_record_mid _ _ _ _ hco,
        List.count_eq_zero.mpr hAnc, List.count_eq_zero.mpr hBnc, List.count_eq_zero.mpr hCnc]
      omega
    · rcases Nat.lt_or_ge i (A.length + 1 + B.length) with h3 | h3
      · -- inside the tag hex
        have hj : i - A.length - 1 < B.length := by omega
        have hstep : i - A.length = (i - A.length - 1) + 1 := by omega
        have hcB : B.get ⟨i - A.length - 1, hj⟩ ≠ c' := by
          intro h
          apply hc'
          rw [List.getElem?_append_right (by omega), hstep, List.getElem?_cons_succ,
            List.getElem?_append_left hj, List.getElem?_eq_getElem hj, ← h]
          rfl
        rw [List.set_append_right _ _ (by omega), hstep, List.set_cons_succ,
          List.set_append_left _ _ hj]
        by_cases hcolon : c' = ':'
        · subst hcolon
          apply decrypt_parts_ne_three
          rw [splitCh_length_count, count_record]
          have hmem : ':' ∈ B.set (i - A.length - 1) ':' :=
            List.getElem?_mem (List.getElem?_set_self hj)
          have h1B : 0 < (B.set (i - A.length - 1) ':').count ':' :=
            List.count_pos_iff.mpr hmem
          omega
        · have hsetnc : ':' ∉ B.set (i - A.length - 1) c' := by
            intro hmem
            rcases mem_set_or _ _ _ _ hmem with h | h
            · exact hBnc h
            · exact hcolon h.symm
          exact decrypt_tampered_tag key iv _ _ hctb
            (set_ne_self B _ c' hj hcB) hsetnc
      · rcases Nat.lt_or_ge i (A.length + 1 + B.length + 1) with h4 | h4
        · -- the second colon
          have hieq : i = A.length + 1 + B.length := by omega
          subst hieq
          have hstep : A.length + 1 + B.length - A.length = B.length + 1 := by omega
          have hco : c' ≠ ':' := by
            intro h
            subst h
            apply hc'
            rw [List.getElem?_append_right (by omega), hstep, List.getElem?_cons_succ,
              List.getElem?_append_right (by omega), Nat.sub_self]
            simp
          rw [List.set_append_right _ _ (by omega), hstep, List.set_cons_succ,
            List.set_append_right _ _ (by omega), Nat.sub_self, List.set_cons_zero]
          apply decrypt_parts_ne_three
          rw [splitCh_length_count, count_record_mid2 _ _ _ _ hco,
            List.count_eq_zero.mpr hAnc, List.count_eq_zero.mpr hBnc,
            List.count_eq_zero.mpr hCnc]
          omega
        · -- inside the ciphertext hex
          have hj : i - A.length - 1 - B.length - 1 < C.length := by
            rw [hlen] at hi'
            omega
          have hstep : i - A.length = (i - A.length - 1) + 1 := by omega
          have hstep2 : i - A.length - 1 - B.length = (i - A.length - 1 - B.length - 1) + 1 := by
            omega
          have hcC : C.get ⟨i - A.length - 1 - B.length - 1, hj⟩ ≠ c' := by
            intro h
            apply hc'
            rw [List.getElem?_append_right (by omega), hstep, List.getElem?_cons_succ,
              List.getElem?_append_right (by omega), hstep2, List.getElem?_cons_succ,
              List.getElem?_eq_getElem hj, ← h]
            rfl
          rw [List.set_append_right _ _ (by omega), hstep, List.set_cons_succ,
            List.set_append_right _ _ (by omega), hstep2, List.set_cons_succ]
          by_cases hcolon : c' = ':'
          · subst hcolon
            apply decrypt_parts_ne_three
            rw [splitCh_length_count, count_record]
            have hmem : ':' ∈ C.set (i - A.length - 1 - B.length - 1) ':' :=
              List.getElem?_mem (List.getElem?_set_self hj)
            have h1C : 0 < (C.set (i - A.length - 1 - B.length - 1) ':').count ':' :=
              List.count_pos_iff.mpr hmem
            omega
          · have hsetnc : ':' ∉ C.set (i - A.length - 1 - B.length - 1) c' := by
              intro hmem
              rcases mem_set_or _ _ _ _ hmem with h | h
              · exact hCnc h
              · exact hcolon h.symm
            exact decrypt_tampered_ct key iv _ _ hctb
              (set_ne_self C _ c' hj hcC) hsetnc

/-- C9: encryption round trip and tamper detection.  For every plaintext
`P`, `decrypt (encrypt P) = P`; altering any single byte of a well-formed
ciphertext record makes `decrypt` fail; and any record without exactly
three `':'`-separated parts makes `decrypt` fail. -/
theorem encryption_roundtrip_tamper :
    (∀ (key : List Nat) (iv : Nat) (p : String), decrypt key (encrypt key iv p) = some p) ∧
    (∀ (key : List Nat) (iv : Nat) (p : String) (i : Nat) (c' : Char)
      (hi : i < (encrypt key iv p).length),
      (encrypt key iv p).get ⟨i, hi⟩ ≠ c' →
      decrypt key ((encrypt key iv p).set i c') = none) ∧
    (∀ (key : List Nat) (r : List Char), (splitCh ':' r).length ≠ 3 →
      decrypt key r = none) :=
  ⟨decrypt_encrypt,
   fun key iv p i c' hi hc => decrypt_set_ne key iv p i c' hi hc,
   decrypt_parts_ne_three⟩

/-- C9's witness: with the key `[1, 2]` and nonce `5`, `"AB"` round-trips;
flipping the record's first character to `'z'` makes `decrypt` fail; and a
record without three parts (`"x"`) fails. -/
theorem encryption_roundtrip_tamper_witness :
    decrypt [1, 2] (encrypt [1, 2] 5 "AB") = some "AB" ∧
    decrypt [1, 2] ((encrypt [1, 2] 5 "AB").set 0 'z') = none ∧
    ((splitCh ':' ['x']).length ≠ 3 ∧ decrypt [1, 2] ['x'] = none) :=
  ⟨encryption_roundtrip_tamper.1 [1, 2] 5 "AB",
   encryption_roundtrip_tamper.2.1 [1, 2] 5 "AB" 0 'z' (by decide) (by decide),
   by decide,
   encryption_roundtrip_tamper.2.2 [1, 2] ['x'] (by decide)⟩

end TwoFA
